import Mathlib

/-!
Verification of the NLMS acoustic echo canceller in `echo_nlms/src/lib.rs`
and of the block-level double-talk gate in `src/bin/delay-jammer.rs`.

Modelling conventions:
* `i16` audio samples are modelled as `ℤ` (with explicit range bounds where
  a property depends on them).
* `f32` arithmetic inside the canceller is idealised as exact arithmetic on
  `ℚ`; every accumulation mirrors the order of operations of the source.
* The `sqrt` used by the gate's RMS computation forces that one component to
  be modelled over `ℝ`.
* Rust `assert!` panics are modelled by returning `Option.none`; a normal
  return is `Option.some`.
-/

namespace EchoNlms

/-- `DEFAULT_EPSILON` from `lib.rs`: `1e-3`. -/
def DEFAULT_EPSILON : ℚ := 1 / 1000

/-- The `NlmsCanceller` struct from `lib.rs`. -/
structure NlmsCanceller where
  taps : List ℚ
  history : List ℚ
  history_pos : ℕ
  energy : ℚ
  mu : ℚ
  epsilon : ℚ
  deriving Repr, DecidableEq

/-- `dec_idx` from `lib.rs`: decrement an index with wraparound. -/
def dec_idx (len idx : ℕ) : ℕ :=
  if idx = 0 then len - 1 else idx - 1

/-- `NlmsCanceller::new`: `assert!(tap_len > 0)` is modelled as `none`. -/
def NlmsCanceller.new (tap_len : ℕ) (mu : ℚ) : Option NlmsCanceller :=
  if tap_len = 0 then none
  else some
    { taps := List.replicate tap_len 0
      history := List.replicate tap_len 0
      history_pos := 0
      energy := 1 / 1000000
      mu := mu
      epsilon := DEFAULT_EPSILON }

/-- Loop body of `NlmsCanceller::estimate_echo`: walk the taps, decrementing
`idx` with wraparound before each read of `history`. -/
def estimateGo (history : List ℚ) (len : ℕ) : List ℚ → ℕ → ℚ → ℚ
  | [], _, acc => acc
  | w :: ws, idx, acc =>
    let idx' := dec_idx len idx
    estimateGo history len ws idx' (acc + w * history.getD idx' 0)

/-- `NlmsCanceller::estimate_echo` from `lib.rs`. -/
def NlmsCanceller.estimate_echo (s : NlmsCanceller) : ℚ :=
  estimateGo s.history s.history.length s.taps s.history_pos 0

/-- Loop body of `NlmsCanceller::update_taps`: same traversal as
`estimateGo`, adding `scale * history[idx]` to each weight. -/
def updateGo (history : List ℚ) (len : ℕ) (scale : ℚ) : List ℚ → ℕ → List ℚ
  | [], _ => []
  | w :: ws, idx =>
    let idx' := dec_idx len idx
    (w + scale * history.getD idx' 0) :: updateGo history len scale ws idx'

/-- `NlmsCanceller::update_taps` from `lib.rs`. -/
def NlmsCanceller.update_taps (s : NlmsCanceller) (error : ℚ) : NlmsCanceller :=
  let norm := s.energy + s.epsilon
  let scale := s.mu * error / norm
  { s with taps := updateGo s.history s.history.length scale s.taps s.history_pos }

/-- The history/energy ingestion step at the top of the per-sample loop of
`process_block`: evict the oldest sample, store the new render sample,
update and floor the energy, advance the cursor. -/
def NlmsCanceller.ingest (s : NlmsCanceller) (x : ℚ) : NlmsCanceller :=
  let old := s.history.getD s.history_pos 0
  let history := s.history.set s.history_pos x
  let energy := s.energy + x * x - old * old
  let energy := if energy < s.epsilon then s.epsilon else energy
  { s with
      history := history
      energy := energy
      history_pos := (s.history_pos + 1) % history.length }

/-- Truncation toward zero, the semantics of Rust `as i16` on an `f32`
already clamped into the representable range. -/
def ratTrunc (q : ℚ) : ℤ :=
  if q < 0 then -⌊-q⌋ else ⌊q⌋

/-- Rust `f32::clamp(lo, hi)`. -/
def clampQ (x lo hi : ℚ) : ℚ :=
  if x < lo then lo else if x > hi then hi else x

/-- One iteration of the per-sample loop of `NlmsCanceller::process_block`:
ingest the render sample, estimate the echo, emit the clamped residual, and
update the taps when `adapt` is set. -/
def NlmsCanceller.processSample (s : NlmsCanceller) (r c : ℤ) (adapt : Bool) :
    NlmsCanceller × ℤ :=
  let s1 := s.ingest (r : ℚ)
  let estimate := s1.estimate_echo
  let error := (c : ℚ) - estimate
  let out := ratTrunc (clampQ error (-32768) 32767)
  let s2 := if adapt then s1.update_taps error else s1
  (s2, out)

/-- The per-sample loop of `process_block`, over the paired render/capture
samples, producing the final state and the written output block. -/
def processGo (adapt : Bool) : NlmsCanceller → List ℤ → List ℤ → NlmsCanceller × List ℤ
  | s, r :: rs, c :: cs =>
    let p := s.processSample r c adapt
    let q := processGo adapt p.1 rs cs
    (q.1, p.2 :: q.2)
  | s, _, _ => (s, [])

/-- `NlmsCanceller::process_block` from `lib.rs`: the two `assert_eq!`
length checks are modelled as `none`; on success the state and the fully
overwritten output buffer are returned. -/
def NlmsCanceller.process_block (s : NlmsCanceller) (render capture output : List ℤ)
    (adapt : Bool) : Option (NlmsCanceller × List ℤ) :=
  if render.length ≠ capture.length then none
  else if capture.length ≠ output.length then none
  else some (processGo adapt s render capture)

/-- Sequential processing of a list of (render, capture) block pairs, each
with a correctly sized output buffer, as the audio loop would drive it. -/
def processBlocks (adapt : Bool) :
    NlmsCanceller → List (List ℤ × List ℤ) → Option (NlmsCanceller × List (List ℤ))
  | s, [] => some (s, [])
  | s, (r, c) :: rest =>
    match s.process_block r c (List.replicate c.length 0) adapt with
    | none => none
    | some p => (processBlocks adapt p.1 rest).map fun q => (q.1, p.2 :: q.2)

/-! The double-talk gate of `src/bin/delay-jammer.rs`.  The `sqrt` in the
RMS computation is irrational in general, so this component is modelled
over `ℝ`. -/

/-- `MIN_RENDER_LEVEL` from `delay-jammer.rs`: `0.002`. -/
noncomputable def min_render_level : ℝ := 2 / 1000

/-- `DOUBLE_TALK_RATIO` from `delay-jammer.rs`: `2.5`. -/
noncomputable def double_talk_ratio : ℝ := 5 / 2

/-- `rms_level` from `delay-jammer.rs`: root-mean-square of the block,
divided by `i16::MAX`, capped at `1.0` (empty block gives `0`). -/
noncomputable def rms_level (samples : List ℤ) : ℝ :=
  if samples = [] then 0
  else
    let sum := (samples.map fun s => (s : ℝ) * (s : ℝ)).sum
    let rms := Real.sqrt (sum / samples.length)
    min (rms / 32767) 1

/-- The per-block adapt decision computed in `run` of `delay-jammer.rs`,
with the two thresholds as parameters (the binary fixes them to
`min_render_level` and `double_talk_ratio`). -/
noncomputable def adaptGate (renderHist input : List ℤ) (thr ratio : ℝ) : Prop :=
  rms_level renderHist > thr ∧ rms_level input ≤ rms_level renderHist * ratio

/-- A small concrete state used to instantiate universally quantified
theorems: one tap, zero weight, unit energy. -/
def sampleState : NlmsCanceller :=
  { taps := [0], history := [0], history_pos := 0, energy := 1, mu := 0,
    epsilon := 1 / 1000 }

/-- State reached from `sampleState` after processing render block `[1]`
against capture `[2]` (step size is `0`, so taps stay zero). -/
def c4MidState : NlmsCanceller :=
  { taps := [0], history := [1], history_pos := 0, energy := 2, mu := 0,
    epsilon := 1 / 1000 }

/-- State reached from `c4MidState` after processing render block `[3]`
against capture `[4]`. -/
def c4EndState : NlmsCanceller :=
  { taps := [0], history := [3], history_pos := 0, energy := 10, mu := 0,
    epsilon := 1 / 1000 }

/-- A state with one tap of weight `2`, used to drive the residual past the
i16 maximum. -/
def c8State : NlmsCanceller :=
  { taps := [2], history := [0], history_pos := 0, energy := 1, mu := 0,
    epsilon := 1 / 1000 }

/-- The state of the fixed-lag scenario: all `n` taps equal to `w`, history
all zero, cursor at `0` (energy, step size and epsilon arbitrary). -/
def lagOneState (n : ℕ) (w e m ep : ℚ) : NlmsCanceller :=
  { taps := List.replicate n w, history := List.replicate n 0, history_pos := 0,
    energy := e, mu := m, epsilon := ep }

/-! Helper lemmas about the state components touched by each operation. -/

theorem update_taps_energy (s : NlmsCanceller) (e : ℚ) :
    (s.update_taps e).energy = s.energy := rfl

theorem update_taps_epsilon (s : NlmsCanceller) (e : ℚ) :
    (s.update_taps e).epsilon = s.epsilon := rfl

theorem update_taps_history (s : NlmsCanceller) (e : ℚ) :
    (s.update_taps e).history = s.history := rfl

theorem update_taps_history_pos (s : NlmsCanceller) (e : ℚ) :
    (s.update_taps e).history_pos = s.history_pos := rfl

theorem update_taps_mu (s : NlmsCanceller) (e : ℚ) :
    (s.update_taps e).mu = s.mu := rfl

theorem ingest_epsilon (s : NlmsCanceller) (x : ℚ) :
    (s.ingest x).epsilon = s.epsilon := rfl

theorem ingest_mu (s : NlmsCanceller) (x : ℚ) :
    (s.ingest x).mu = s.mu := rfl

theorem ingest_taps (s : NlmsCanceller) (x : ℚ) :
    (s.ingest x).taps = s.taps := rfl

theorem epsilon_le_ingest_energy (s : NlmsCanceller) (x : ℚ) :
    s.epsilon ≤ (s.ingest x).energy := by
  unfold NlmsCanceller.ingest
  dsimp only
  split
  · exact le_refl _
  · exact le_of_not_lt (by assumption)

theorem processSample_fst (s : NlmsCanceller) (r c : ℤ) (adapt : Bool) :
    (s.processSample r c adapt).1 =
      if adapt then (s.ingest (r : ℚ)).update_taps ((c : ℚ) - (s.ingest (r : ℚ)).estimate_echo)
      else s.ingest (r : ℚ) := rfl

theorem processSample_epsilon (s : NlmsCanceller) (r c : ℤ) (adapt : Bool) :
    (s.processSample r c adapt).1.epsilon = s.epsilon := by
  rw [processSample_fst]
  cases adapt <;> simp [update_taps_epsilon, ingest_epsilon]

theorem epsilon_le_processSample_energy (s : NlmsCanceller) (r c : ℤ) (adapt : Bool) :
    s.epsilon ≤ (s.processSample r c adapt).1.energy := by
  rw [processSample_fst]
  cases adapt <;> simp [update_taps_energy, epsilon_le_ingest_energy]

theorem processGo_epsilon (adapt : Bool) (rs : List ℤ) :
    ∀ (s : NlmsCanceller) (cs : List ℤ), (processGo adapt s rs cs).1.epsilon = s.epsilon := by
  induction rs with
  | nil => intro s cs; simp [processGo]
  | cons r rs ih =>
    intro s cs
    cases cs with
    | nil => simp [processGo]
    | cons c cs =>
      simp only [processGo]
      rw [ih]
      exact processSample_epsilon s r c adapt

theorem processGo_energy_floor (adapt : Bool) (rs : List ℤ) :
    ∀ (s : NlmsCanceller) (cs : List ℤ), s.epsilon ≤ s.energy →
      (processGo adapt s rs cs).1.epsilon ≤ (processGo adapt s rs cs).1.energy := by
  induction rs with
  | nil => intro s cs h; simpa [processGo] using h
  | cons r rs ih =>
    intro s cs h
    cases cs with
    | nil => simpa [processGo] using h
    | cons c cs =>
      simp only [processGo]
      exact ih _ cs (by
        rw [processSample_epsilon]
        exact epsilon_le_processSample_energy s r c adapt)

end EchoNlms

namespace EchoNlms

/-- C2 counterexample: a freshly created canceller (tap length 4, step size
1/10) has `energy = 1e-6 < 1e-3 = epsilon`, so the invariant
`energy ≥ epsilon` does not hold immediately after creation. -/
theorem C2_energy_floor_counterexample :
    (NlmsCanceller.new 4 (1/10)).elim False (fun s => s.energy < s.epsilon) := by
  norm_num [NlmsCanceller.new, DEFAULT_EPSILON]

/-- C2 (amended): the invariant `energy ≥ epsilon` holds after every sample
processed (hence before and after every later sample of every block,
including all-zero blocks), and `epsilon` itself is never changed by
processing; immediately after creation, however, `energy = 1e-6`, which is
strictly below the default `epsilon = 1e-3`. -/
theorem C2_energy_floor_amended :
    (∀ (s : NlmsCanceller) (r c : ℤ) (adapt : Bool),
        s.epsilon ≤ (s.processSample r c adapt).1.energy) ∧
    (∀ (adapt : Bool) (s : NlmsCanceller) (rs cs : List ℤ),
        (processGo adapt s rs cs).1.epsilon = s.epsilon) ∧
    (∀ (adapt : Bool) (s : NlmsCanceller) (rs cs : List ℤ), s.epsilon ≤ s.energy →
        (processGo adapt s rs cs).1.epsilon ≤ (processGo adapt s rs cs).1.energy) ∧
    (∀ (n : ℕ) (mu : ℚ) (s0 : NlmsCanceller), NlmsCanceller.new n mu = some s0 →
        s0.energy = 1/1000000 ∧ s0.epsilon = 1/1000 ∧ s0.energy < s0.epsilon) := by
  refine ⟨epsilon_le_processSample_energy, fun a s rs cs => processGo_epsilon a rs s cs,
    fun a s rs cs => processGo_energy_floor a rs s cs, ?_⟩
  intro n mu s0 h
  unfold NlmsCanceller.new at h
  split at h
  · exact absurd h (by simp)
  · cases h
    norm_num [DEFAULT_EPSILON]

/-- C2 witness: instantiating the amended floor at a concrete state. -/
theorem C2_energy_floor_witness :
    (processGo true sampleState [0, 0] [5, 5]).1.epsilon ≤
      (processGo true sampleState [0, 0] [5, 5]).1.energy :=
  C2_energy_floor_amended.2.2.1 true sampleState [0, 0] [5, 5] (by norm_num [sampleState])

/-- C3 counterexample: `process_block` called with zero-length render,
capture and output blocks does not fail — it returns successfully (as a
no-op), contradicting the claim that non-positive block sizes fail with a
configuration error at the first call. -/
theorem C3_fail_fast_counterexample :
    ((NlmsCanceller.new 2 0).bind (fun s => s.process_block [] [] [] true)).isSome = true := by
  simp [NlmsCanceller.new, NlmsCanceller.process_block]

/-- C3 (amended): `new` fails with a configuration error exactly when
`tap_length = 0`; `process_block` on zero-length blocks does not fail but
succeeds as a no-op, returning the state unchanged and writing nothing. -/
theorem C3_fail_fast_amended :
    (∀ mu : ℚ, NlmsCanceller.new 0 mu = none) ∧
    (∀ (n : ℕ) (mu : ℚ), n ≠ 0 → (NlmsCanceller.new n mu).isSome = true) ∧
    (∀ (s : NlmsCanceller) (adapt : Bool),
        s.process_block [] [] [] adapt = some (s, [])) := by
  refine ⟨fun mu => by simp [NlmsCanceller.new], fun n mu h => by simp [NlmsCanceller.new, h],
    fun s adapt => ?_⟩
  simp [NlmsCanceller.process_block, processGo]

/-- C3 witness: instantiating the amended statement at tap length 3. -/
theorem C3_fail_fast_witness :
    (NlmsCanceller.new 3 (1/10)).isSome = true :=
  C3_fail_fast_amended.2.1 3 (1/10) (by norm_num)

/-- C7: whenever the three block lengths are not all identical,
`process_block` fails before processing any sample: it returns `none`, so
no state component and no output sample is written. -/
theorem C7_length_mismatch (s : NlmsCanceller) (render capture output : List ℤ)
    (adapt : Bool) (h : ¬(render.length = capture.length ∧ capture.length = output.length)) :
    s.process_block render capture output adapt = none := by
  unfold NlmsCanceller.process_block
  rcases Decidable.not_and_iff_or_not.mp h with h1 | h2
  · simp [h1]
  · by_cases h1 : render.length = capture.length
    · simp [h1, h2]
    · simp [h1]

/-- C7 witness: lengths 10 / 10 / 9 fail. -/
theorem C7_length_mismatch_witness :
    sampleState.process_block
        (List.replicate 10 0) (List.replicate 10 0) (List.replicate 9 0) true = none :=
  C7_length_mismatch _ _ _ _ true (by simp)

/-- C10: `process_block` is deterministic — two calls on componentwise
equal states with equal render/capture/output blocks and equal adapt flags
return equal results; nothing outside the state and the arguments enters
the computation. -/
theorem C10_deterministic (s1 s2 : NlmsCanceller) (r1 r2 c1 c2 o1 o2 : List ℤ)
    (a1 a2 : Bool)
    (ht : s1.taps = s2.taps) (hh : s1.history = s2.history)
    (hp : s1.history_pos = s2.history_pos) (he : s1.energy = s2.energy)
    (hm : s1.mu = s2.mu) (hep : s1.epsilon = s2.epsilon)
    (hr : r1 = r2) (hc : c1 = c2) (ho : o1 = o2) (ha : a1 = a2) :
    s1.process_block r1 c1 o1 a1 = s2.process_block r2 c2 o2 a2 := by
  cases s1
  cases s2
  simp only at ht hh hp he hm hep
  subst ht hh hp he hm hep hr hc ho ha
  rfl

/-- C10 witness: determinism instantiated at a concrete state and block. -/
theorem processGo_append (adapt : Bool) (r1 : List ℤ) :
    ∀ (c1 : List ℤ) (s : NlmsCanceller) (r2 c2 : List ℤ), r1.length = c1.length →
      processGo adapt s (r1 ++ r2) (c1 ++ c2) =
        ((processGo adapt (processGo adapt s r1 c1).1 r2 c2).1,
          (processGo adapt s r1 c1).2 ++
            (processGo adapt (processGo adapt s r1 c1).1 r2 c2).2) := by
  induction r1 with
  | nil =>
    intro c1 s r2 c2 h
    have hc : c1 = [] := List.length_eq_zero.mp (by simpa using h.symm)
    subst hc
    simp [processGo]
  | cons r rs ih =>
    intro c1 s r2 c2 h
    cases c1 with
    | nil => simp at h
    | cons c cs =>
      simp only [List.cons_append, processGo, List.append_eq]
      rw [ih cs _ r2 c2 (by simpa using h)]

/-- C4: block-split homomorphism — processing a length-`L1` block and then
a length-`L2` block yields the same final state and the concatenation of
the two outputs as one `process_block` call on the concatenated blocks. -/
theorem C4_block_split (s : NlmsCanceller) (r1 c1 o1 r2 c2 o2 : List ℤ) (adapt : Bool)
    (s1 s2 : NlmsCanceller) (out1 out2 : List ℤ)
    (h1 : s.process_block r1 c1 o1 adapt = some (s1, out1))
    (h2 : s1.process_block r2 c2 o2 adapt = some (s2, out2)) :
    s.process_block (r1 ++ r2) (c1 ++ c2) (o1 ++ o2) adapt = some (s2, out1 ++ out2) := by
  have l1 : r1.length = c1.length := by
    by_contra hne; simp [NlmsCanceller.process_block, hne] at h1
  have l2 : c1.length = o1.length := by
    by_contra hne; simp [NlmsCanceller.process_block, l1, hne] at h1
  have l3 : r2.length = c2.length := by
    by_contra hne; simp [NlmsCanceller.process_block, hne] at h2
  have l4 : c2.length = o2.length := by
    by_contra hne; simp [NlmsCanceller.process_block, l3, hne] at h2
  have e1 : processGo adapt s r1 c1 = (s1, out1) := by
    unfold NlmsCanceller.process_block at h1
    rw [if_neg (by simp [l1]), if_neg (by simp [l2])] at h1
    exact Option.some.inj h1
  have e2 : processGo adapt s1 r2 c2 = (s2, out2) := by
    unfold NlmsCanceller.process_block at h2
    rw [if_neg (by simp [l3]), if_neg (by simp [l4])] at h2
    exact Option.some.inj h2
  unfold NlmsCanceller.process_block
  rw [if_neg (by simp [List.length_append, l1, l3]),
    if_neg (by simp [List.length_append, l2, l4]),
    processGo_append adapt r1 c1 s r2 c2 l1, e1]
  simp [e2]

/-- C4 witness: splitting a 2-sample block into two 1-sample blocks at a
concrete state. -/
theorem C4_block_split_witness :
    sampleState.process_block [1, 3] [2, 4] [0, 0] true = some (c4EndState, [2, 4]) :=
  C4_block_split sampleState [1] [2] [0] [3] [4] [0] true c4MidState c4EndState [2] [4]
    (by norm_num [sampleState, c4MidState, NlmsCanceller.process_block, processGo,
      NlmsCanceller.processSample, NlmsCanceller.ingest, NlmsCanceller.estimate_echo,
      NlmsCanceller.update_taps, estimateGo, updateGo, dec_idx, clampQ, ratTrunc])
    (by norm_num [c4MidState, c4EndState, NlmsCanceller.process_block, processGo,
      NlmsCanceller.processSample, NlmsCanceller.ingest, NlmsCanceller.estimate_echo,
      NlmsCanceller.update_taps, estimateGo, updateGo, dec_idx, clampQ, ratTrunc])

theorem ingest_congr (s t : NlmsCanceller) (x : ℚ) (hh : s.history = t.history)
    (hp : s.history_pos = t.history_pos) (he : s.energy = t.energy)
    (hep : s.epsilon = t.epsilon) :
    (s.ingest x).history = (t.ingest x).history ∧
      (s.ingest x).history_pos = (t.ingest x).history_pos ∧
      (s.ingest x).energy = (t.ingest x).energy ∧
      (s.ingest x).epsilon = (t.ingest x).epsilon := by
  unfold NlmsCanceller.ingest
  simp [hh, hp, he, hep]

theorem processSample_history (s : NlmsCanceller) (r c : ℤ) (a : Bool) :
    (s.processSample r c a).1.history = (s.ingest (r : ℚ)).history := by
  rw [processSample_fst]; cases a <;> simp [update_taps_history]

theorem processSample_history_pos (s : NlmsCanceller) (r c : ℤ) (a : Bool) :
    (s.processSample r c a).1.history_pos = (s.ingest (r : ℚ)).history_pos := by
  rw [processSample_fst]; cases a <;> simp [update_taps_history_pos]

theorem processSample_energy (s : NlmsCanceller) (r c : ℤ) (a : Bool) :
    (s.processSample r c a).1.energy = (s.ingest (r : ℚ)).energy := by
  rw [processSample_fst]; cases a <;> simp [update_taps_energy]

theorem processSample_false_taps (s : NlmsCanceller) (r c : ℤ) :
    (s.processSample r c false).1.taps = s.taps := by
  rw [processSample_fst]; simp [ingest_taps]

theorem processGo_nontaps_congr (a b : Bool) (rs : List ℤ) :
    ∀ (cs : List ℤ) (s t : NlmsCanceller), s.history = t.history →
      s.history_pos = t.history_pos → s.energy = t.energy → s.epsilon = t.epsilon →
      ((processGo a s rs cs).1.history = (processGo b t rs cs).1.history ∧
        (processGo a s rs cs).1.history_pos = (processGo b t rs cs).1.history_pos ∧
        (processGo a s rs cs).1.energy = (processGo b t rs cs).1.energy ∧
        (processGo a s rs cs).1.epsilon = (processGo b t rs cs).1.epsilon) := by
  induction rs with
  | nil =>
    intro cs s t hh hp he hep
    simpa [processGo] using ⟨hh, hp, he, hep⟩
  | cons r rs ih =>
    intro cs s t hh hp he hep
    cases cs with
    | nil => simpa [processGo] using ⟨hh, hp, he, hep⟩
    | cons c cs =>
      simp only [processGo]
      obtain ⟨h1, h2, h3, h4⟩ := ingest_congr s t (r : ℚ) hh hp he hep
      exact ih cs _ _
        (by rw [processSample_history, processSample_history]; exact h1)
        (by rw [processSample_history_pos, processSample_history_pos]; exact h2)
        (by rw [processSample_energy, processSample_energy]; exact h3)
        (by rw [processSample_epsilon, processSample_epsilon]; exact h4)

theorem processGo_false_taps (rs : List ℤ) :
    ∀ (cs : List ℤ) (s : NlmsCanceller), (processGo false s rs cs).1.taps = s.taps := by
  induction rs with
  | nil => intro cs s; simp [processGo]
  | cons r rs ih =>
    intro cs s
    cases cs with
    | nil => simp [processGo]
    | cons c cs =>
      simp only [processGo]
      rw [ih cs _, processSample_false_taps]

/-- C9: only the tap update is conditional on `adapt` — with `adapt =
false` the taps are untouched, while for each sample the history, cursor
and energy advance exactly as with `adapt = true`, and the residual output
sample is computed and written identically (from the same pre-state). -/
theorem C9_adapt_frame :
    (∀ (s : NlmsCanceller) (r c : ℤ),
        (s.processSample r c false).2 = (s.processSample r c true).2 ∧
        (s.processSample r c false).1.taps = s.taps ∧
        (s.processSample r c false).1.history = (s.processSample r c true).1.history ∧
        (s.processSample r c false).1.history_pos =
          (s.processSample r c true).1.history_pos ∧
        (s.processSample r c false).1.energy = (s.processSample r c true).1.energy) ∧
    (∀ (s : NlmsCanceller) (rs cs : List ℤ), (processGo false s rs cs).1.taps = s.taps) ∧
    (∀ (s : NlmsCanceller) (rs cs : List ℤ),
        (processGo false s rs cs).1.history = (processGo true s rs cs).1.history ∧
        (processGo false s rs cs).1.history_pos =
          (processGo true s rs cs).1.history_pos ∧
        (processGo false s rs cs).1.energy = (processGo true s rs cs).1.energy) := by
  refine ⟨fun s r c => ⟨rfl, processSample_false_taps s r c, ?_, ?_, ?_⟩,
    fun s rs cs => processGo_false_taps rs cs s, fun s rs cs => ?_⟩
  · rw [processSample_history, processSample_history]
  · rw [processSample_history_pos, processSample_history_pos]
  · rw [processSample_energy, processSample_energy]
  · obtain ⟨h1, h2, h3, _⟩ :=
      processGo_nontaps_congr false true rs cs s s rfl rfl rfl rfl
    exact ⟨h1, h2, h3⟩

theorem dec_idx_lt (len idx : ℕ) (hlen : 0 < len) (hidx : idx < len) :
    dec_idx len idx < len := by
  unfold dec_idx
  split <;> omega

theorem dec_idx_eq_mod (len idx : ℕ) (hlen : 0 < len) (hidx : idx < len) :
    dec_idx len idx = (idx + (len - 1)) % len := by
  unfold dec_idx
  split
  · subst_vars
    rw [Nat.zero_add, Nat.mod_eq_of_lt (by omega)]
  · have h : idx + (len - 1) = (idx - 1) + len := by omega
    rw [h, Nat.add_mod_right, Nat.mod_eq_of_lt (by omega)]

theorem estimateGo_closed (history : List ℚ) (len : ℕ) (hlen : 0 < len) (ws : List ℚ) :
    ∀ (idx : ℕ) (acc : ℚ), idx < len →
      estimateGo history len ws idx acc =
        acc + ∑ k ∈ Finset.range ws.length,
          ws.getD k 0 * history.getD ((idx + (len - 1) * (k + 1)) % len) 0 := by
  induction ws with
  | nil => intro idx acc _; simp [estimateGo]
  | cons w ws ih =>
    intro idx acc hidx
    simp only [estimateGo]
    rw [ih (dec_idx len idx) _ (dec_idx_lt len idx hlen hidx)]
    rw [List.length_cons, Finset.sum_range_succ']
    have h0 : dec_idx len idx = (idx + (len - 1) * (0 + 1)) % len := by
      rw [dec_idx_eq_mod len idx hlen hidx]; ring_nf
    have hs : ∀ k : ℕ, (dec_idx len idx + (len - 1) * (k + 1)) % len
        = (idx + (len - 1) * (k + 1 + 1)) % len := by
      intro k
      rw [dec_idx_eq_mod len idx hlen hidx, Nat.mod_add_mod]
      congr 1
      ring
    have hterm : ∀ k : ℕ,
        ws.getD k 0 * history.getD ((dec_idx len idx + (len - 1) * (k + 1)) % len) 0
          = (w :: ws).getD (k + 1) 0 * history.getD ((idx + (len - 1) * (k + 1 + 1)) % len) 0 := by
      intro k
      rw [hs k]
      rfl
    rw [Finset.sum_congr rfl fun k _ => hterm k]
    simp only [List.getD_cons_zero]
    rw [← h0]
    ring

theorem estimate_after_single_sample (n : ℕ) (hn : 0 < n) (w e m ep : ℚ) (r : ℤ) :
    ((lagOneState n w e m ep).ingest (r : ℚ)).estimate_echo = w * (r : ℚ) := by
  have hhist : ((lagOneState n w e m ep).ingest (r : ℚ)).history
      = (List.replicate n (0 : ℚ)).set 0 (r : ℚ) := rfl
  have hlen : ((lagOneState n w e m ep).ingest (r : ℚ)).history.length = n := by
    rw [hhist]; simp
  have hpos : ((lagOneState n w e m ep).ingest (r : ℚ)).history_pos = 1 % n := by
    show ((0 : ℕ) + 1) % ((List.replicate n (0 : ℚ)).set 0 (r : ℚ)).length = 1 % n
    simp
  have htaps : ((lagOneState n w e m ep).ingest (r : ℚ)).taps = List.replicate n w := rfl
  have hclosed := estimateGo_closed ((lagOneState n w e m ep).ingest (r : ℚ)).history
    ((lagOneState n w e m ep).ingest (r : ℚ)).history.length (by rw [hlen]; exact hn)
    ((lagOneState n w e m ep).ingest (r : ℚ)).taps
    ((lagOneState n w e m ep).ingest (r : ℚ)).history_pos 0
    (by rw [hlen, hpos]; exact Nat.mod_lt 1 hn)
  unfold NlmsCanceller.estimate_echo
  rw [hclosed, zero_add, htaps, hlen, hpos, hhist, List.length_replicate]
  have hp0 : (1 % n + (n - 1) * (0 + 1)) % n = 0 := by
    rw [Nat.mod_add_mod]
    have h : 1 + (n - 1) * (0 + 1) = n := by omega
    rw [h, Nat.mod_self]
  have hpk : ∀ k, 1 ≤ k → k < n → (1 % n + (n - 1) * (k + 1)) % n = n - k := by
    intro k hk1 hkn
    rw [Nat.mod_add_mod]
    obtain ⟨d, rfl⟩ : ∃ d, n = k + d + 1 := ⟨n - k - 1, by omega⟩
    have h : 1 + (k + d + 1 - 1) * (k + 1) = (k + d + 1 - k) + k * (k + d + 1) := by
      have h1 : k + d + 1 - 1 = k + d := by omega
      have h2 : k + d + 1 - k = d + 1 := by omega
      rw [h1, h2]
      ring
    rw [h, Nat.add_mul_mod_self_right, Nat.mod_eq_of_lt (by omega)]
  rw [Finset.sum_eq_single 0]
  · rw [hp0]
    simp [List.getD, List.getElem?_set, List.getElem?_replicate, hn]
  · intro k hk hkne
    have hk1 : 1 ≤ k := Nat.one_le_iff_ne_zero.mpr hkne
    have hkn : k < n := Finset.mem_range.mp hk
    rw [hpk k hk1 hkn]
    have hb : n - k < n := by omega
    have hne : ¬ (0 : ℕ) = n - k := by omega
    simp [List.getD, List.getElem?_set, hne, List.getElem?_replicate, hb]
  · intro h
    exact absurd (Finset.mem_range.mpr hn) h

/-- C1: `estimate_echo` walks the ring buffer starting one position behind
`history_pos`, decrementing with wraparound, so it computes
`sum over k of taps[k] * history[(history_pos - (k+1)) mod N]` — the sample
at lag `k+1`; and after ingesting a single render sample `r` into a state
with all taps equal to `w` and history otherwise zero, the estimate is
exactly `w * r`. -/
theorem C1_estimate_fixed_lag :
    (∀ s : NlmsCanceller, 0 < s.history.length → s.history_pos < s.history.length →
        s.estimate_echo = ∑ k ∈ Finset.range s.taps.length,
          s.taps.getD k 0 * s.history.getD
            ((s.history_pos + (s.history.length - 1) * (k + 1)) % s.history.length) 0) ∧
    (∀ n : ℕ, 0 < n → ∀ (w e m ep : ℚ) (r : ℤ),
        ((lagOneState n w e m ep).ingest (r : ℚ)).estimate_echo = w * (r : ℚ)) := by
  constructor
  · intro s h1 h2
    unfold NlmsCanceller.estimate_echo
    rw [estimateGo_closed s.history s.history.length h1 s.taps s.history_pos 0 h2, zero_add]
  · exact estimate_after_single_sample

/-- C1 witness: the closed form instantiated at a concrete state, and the
lag-1 scenario at `N = 3`, `w = 5`, `r = 7`. -/
theorem C1_estimate_fixed_lag_witness :
    (sampleState.estimate_echo = ∑ k ∈ Finset.range sampleState.taps.length,
        sampleState.taps.getD k 0 * sampleState.history.getD
          ((sampleState.history_pos + (sampleState.history.length - 1) * (k + 1)) %
            sampleState.history.length) 0) ∧
    ((lagOneState 3 5 1 0 (1 / 1000)).ingest ((7 : ℤ) : ℚ)).estimate_echo
      = 5 * ((7 : ℤ) : ℚ) :=
  ⟨C1_estimate_fixed_lag.1 sampleState (by norm_num [sampleState])
      (by norm_num [sampleState]),
    C1_estimate_fixed_lag.2 3 (by norm_num) 5 1 0 (1 / 1000) 7⟩

theorem estimateGo_zero_taps (history : List ℚ) (len : ℕ) (ws : List ℚ) :
    ∀ (idx : ℕ) (acc : ℚ), (∀ w ∈ ws, w = 0) → estimateGo history len ws idx acc = acc := by
  induction ws with
  | nil => intro idx acc _; rfl
  | cons w ws ih =>
    intro idx acc h
    simp only [estimateGo]
    rw [h w (List.mem_cons_self w ws), zero_mul, add_zero]
    exact ih _ _ fun w hw => h w (List.mem_cons_of_mem _ hw)

theorem updateGo_zero_scale (history : List ℚ) (len : ℕ) (ws : List ℚ) :
    ∀ idx : ℕ, updateGo history len 0 ws idx = ws := by
  induction ws with
  | nil => intro idx; rfl
  | cons w ws ih =>
    intro idx
    simp only [updateGo, zero_mul, add_zero]
    rw [ih]

theorem update_taps_mu_zero (s : NlmsCanceller) (e : ℚ) (h : s.mu = 0) :
    s.update_taps e = s := by
  cases s with
  | mk taps history pos energy mu eps =>
    simp only at h
    subst h
    unfold NlmsCanceller.update_taps
    simp [updateGo_zero_scale]

theorem estimate_zero_of_zero_taps (s : NlmsCanceller) (h : ∀ w ∈ s.taps, w = 0) :
    s.estimate_echo = 0 := by
  unfold NlmsCanceller.estimate_echo
  simpa using estimateGo_zero_taps s.history s.history.length s.taps s.history_pos 0 h

theorem ratTrunc_intCast (n : ℤ) : ratTrunc ((n : ℤ) : ℚ) = n := by
  unfold ratTrunc
  by_cases h : ((n : ℤ) : ℚ) < 0
  · rw [if_pos h]
    rw [show -((n : ℤ) : ℚ) = (((-n : ℤ)) : ℚ) by push_cast; ring, Int.floor_intCast]
    ring
  · rw [if_neg h, Int.floor_intCast]

theorem processSample_true_mu_zero_fst (s : NlmsCanceller) (r c : ℤ) (hmu : s.mu = 0) :
    (s.processSample r c true).1 = s.ingest (r : ℚ) := by
  have h := update_taps_mu_zero (s.ingest (r : ℚ))
    ((c : ℚ) - (s.ingest (r : ℚ)).estimate_echo) (by rw [ingest_mu]; exact hmu)
  rw [processSample_fst]
  simp [h]

theorem processSample_mu_zero_out (s : NlmsCanceller) (r c : ℤ)
    (htaps : ∀ w ∈ s.taps, w = 0) (hc1 : -32768 ≤ c) (hc2 : c ≤ 32767) :
    ∀ adapt : Bool, (s.processSample r c adapt).2 = c := by
  intro adapt
  have hest : (s.ingest (r : ℚ)).estimate_echo = 0 :=
    estimate_zero_of_zero_taps _ (by rw [ingest_taps]; exact htaps)
  have hlo : (-32768 : ℚ) ≤ (c : ℚ) := by exact_mod_cast hc1
  have hhi : (c : ℚ) ≤ (32767 : ℚ) := by exact_mod_cast hc2
  show ratTrunc (clampQ ((c : ℚ) - (s.ingest (r : ℚ)).estimate_echo) (-32768) 32767) = c
  rw [hest, sub_zero]
  unfold clampQ
  rw [if_neg (by linarith), if_neg (by simp; linarith)]
  exact ratTrunc_intCast c

theorem processGo_mu_zero (rs : List ℤ) :
    ∀ (cs : List ℤ) (s : NlmsCanceller), s.mu = 0 → (∀ w ∈ s.taps, w = 0) →
      rs.length = cs.length → (∀ x ∈ cs, -32768 ≤ x ∧ x ≤ 32767) →
      (processGo true s rs cs).1.taps = s.taps ∧ (processGo true s rs cs).1.mu = 0 ∧
        (processGo true s rs cs).2 = cs := by
  induction rs with
  | nil =>
    intro cs s hmu htaps hlen _
    have : cs = [] := List.length_eq_zero.mp (by simpa using hlen.symm)
    subst this
    simpa [processGo] using hmu
  | cons r rs ih =>
    intro cs s hmu htaps hlen hcs
    cases cs with
    | nil => simp at hlen
    | cons c cs =>
      simp only [processGo]
      have hfst := processSample_true_mu_zero_fst s r c hmu
      have htaps1 : (s.processSample r c true).1.taps = s.taps := by
        rw [hfst, ingest_taps]
      have hmu1 : (s.processSample r c true).1.mu = 0 := by
        rw [hfst, ingest_mu]; exact hmu
      obtain ⟨ht, hm, ho⟩ := ih cs (s.processSample r c true).1 hmu1
        (by rw [htaps1]; exact htaps) (by simpa using hlen)
        (fun x hx => hcs x (List.mem_cons_of_mem _ hx))
      refine ⟨by rw [ht, htaps1], hm, ?_⟩
      rw [ho, processSample_mu_zero_out s r c htaps
        (hcs c (List.mem_cons_self c cs)).1 (hcs c (List.mem_cons_self c cs)).2]

theorem processBlocks_mu_zero (blocks : List (List ℤ × List ℤ)) :
    ∀ s : NlmsCanceller, s.mu = 0 → (∀ w ∈ s.taps, w = 0) →
      (∀ p ∈ blocks, p.1.length = p.2.length ∧ ∀ x ∈ p.2, -32768 ≤ x ∧ x ≤ 32767) →
      ∃ sf outs, processBlocks true s blocks = some (sf, outs) ∧
        outs = blocks.map Prod.snd ∧ sf.taps = s.taps ∧ sf.mu = 0 := by
  induction blocks with
  | nil =>
    intro s hmu htaps _
    exact ⟨s, [], rfl, rfl, rfl, hmu⟩
  | cons p rest ih =>
    intro s hmu htaps hblocks
    obtain ⟨r, c⟩ := p
    obtain ⟨hlen, hrange⟩ := hblocks (r, c) (List.mem_cons_self (r, c) rest)
    have hpb : s.process_block r c (List.replicate c.length 0) true =
        some (processGo true s r c) := by
      unfold NlmsCanceller.process_block
      rw [if_neg (by simp [hlen]), if_neg (by simp)]
    obtain ⟨ht, hm, ho⟩ := processGo_mu_zero r c s hmu htaps hlen hrange
    obtain ⟨sf, outs, heq, houts, htf, hmf⟩ := ih (processGo true s r c).1 hm
      (by rw [ht]; exact htaps) (fun q hq => hblocks q (List.mem_cons_of_mem _ hq))
    refine ⟨sf, (processGo true s r c).2 :: outs, ?_, ?_, by rw [htf, ht], hmf⟩
    · simp only [processBlocks]
      rw [hpb]
      show (processBlocks true (processGo true s r c).1 rest).map
          (fun q => (q.1, (processGo true s r c).2 :: q.2)) = _
      rw [heq]
      rfl
    · simp [houts, ho]

/-- C6: with `step_size = 0` and `adapt = true`, any number of
`process_block` calls on valid blocks (in-range i16 captures, matching
lengths) leaves all taps zero and writes output equal to capture on every
call. -/
theorem C6_mu_zero_noop (n : ℕ) (s0 : NlmsCanceller)
    (hnew : NlmsCanceller.new n 0 = some s0)
    (blocks : List (List ℤ × List ℤ))
    (hblocks : ∀ p ∈ blocks, p.1.length = p.2.length ∧
        ∀ x ∈ p.2, -32768 ≤ x ∧ x ≤ 32767) :
    ∃ sf outs, processBlocks true s0 blocks = some (sf, outs) ∧
      outs = blocks.map Prod.snd ∧ (∀ w ∈ sf.taps, w = 0) := by
  have hmu : s0.mu = 0 := by
    unfold NlmsCanceller.new at hnew
    split at hnew
    · exact absurd hnew (by simp)
    · cases hnew; rfl
  have htaps : ∀ w ∈ s0.taps, w = 0 := by
    unfold NlmsCanceller.new at hnew
    split at hnew
    · exact absurd hnew (by simp)
    · cases hnew
      intro w hw
      exact List.eq_of_mem_replicate hw
  obtain ⟨sf, outs, heq, houts, htf, _⟩ := processBlocks_mu_zero blocks s0 hmu htaps hblocks
  exact ⟨sf, outs, heq, houts, by rw [htf]; exact htaps⟩

/-- C6 witness: two blocks through a freshly created `mu = 0` canceller. -/
theorem C6_mu_zero_noop_witness :
    ∃ sf outs,
      processBlocks true
          { taps := [0, 0], history := [0, 0], history_pos := 0, energy := 1 / 1000000,
            mu := 0, epsilon := 1 / 1000 } [([1, 2], [3, 4]), ([5, 6], [7, 8])] =
        some (sf, outs) ∧
      outs = [[3, 4], [7, 8]] ∧ (∀ w ∈ sf.taps, w = 0) :=
  C6_mu_zero_noop 2 _ (by norm_num [NlmsCanceller.new, DEFAULT_EPSILON, List.replicate])
    [([1, 2], [3, 4]), ([5, 6], [7, 8])] (by norm_num)

theorem clampQ_mem (x lo hi : ℚ) (h : lo ≤ hi) :
    lo ≤ clampQ x lo hi ∧ clampQ x lo hi ≤ hi := by
  unfold clampQ
  by_cases h1 : x < lo
  · rw [if_pos h1]; exact ⟨le_refl _, h⟩
  · rw [if_neg h1]
    by_cases h2 : x > hi
    · rw [if_pos h2]; exact ⟨h, le_refl _⟩
    · rw [if_neg h2]; exact ⟨le_of_not_lt h1, le_of_not_lt h2⟩

theorem ratTrunc_le (q : ℚ) (n : ℤ) (hq : q ≤ (n : ℚ)) (hn : 0 ≤ n) : ratTrunc q ≤ n := by
  unfold ratTrunc
  by_cases h : q < 0
  · rw [if_pos h]
    have h0 : (0 : ℤ) ≤ ⌊-q⌋ := Int.floor_nonneg.mpr (by linarith)
    omega
  · rw [if_neg h]
    calc ⌊q⌋ ≤ ⌊(n : ℚ)⌋ := Int.floor_le_floor hq
      _ = n := Int.floor_intCast n

theorem le_ratTrunc (q : ℚ) (n : ℤ) (hq : (n : ℚ) ≤ q) (hn : n ≤ 0) : n ≤ ratTrunc q := by
  unfold ratTrunc
  by_cases h : q < 0
  · rw [if_pos h]
    have h1 : ⌊-q⌋ ≤ -n := by
      have hcast : -q ≤ (((-n : ℤ)) : ℚ) := by push_cast; linarith
      calc ⌊-q⌋ ≤ ⌊(((-n : ℤ)) : ℚ)⌋ := Int.floor_le_floor hcast
        _ = -n := Int.floor_intCast _
    omega
  · rw [if_neg h]
    have h0 : (0 : ℤ) ≤ ⌊q⌋ := Int.floor_nonneg.mpr (le_of_not_lt h)
    omega

/-- C8: each output sample is the real-valued residual
`capture - estimate` clamped into the i16 range and truncated; residuals
above `32767` emit exactly `32767`, residuals below `-32768` emit exactly
`-32768`, and every emitted sample lies in `[-32768, 32767]` (no
wraparound). -/
theorem C8_saturation (s : NlmsCanceller) (r c : ℤ) (adapt : Bool) :
    (s.processSample r c adapt).2 =
      ratTrunc (clampQ ((c : ℚ) - (s.ingest (r : ℚ)).estimate_echo) (-32768) 32767) ∧
    (-32768 ≤ (s.processSample r c adapt).2 ∧ (s.processSample r c adapt).2 ≤ 32767) ∧
    (32767 < (c : ℚ) - (s.ingest (r : ℚ)).estimate_echo →
      (s.processSample r c adapt).2 = 32767) ∧
    ((c : ℚ) - (s.ingest (r : ℚ)).estimate_echo < -32768 →
      (s.processSample r c adapt).2 = -32768) := by
  refine ⟨rfl, ⟨?_, ?_⟩, ?_, ?_⟩
  · show (-32768 : ℤ) ≤ ratTrunc (clampQ _ (-32768) 32767)
    refine le_ratTrunc _ _ ?_ (by norm_num)
    have := (clampQ_mem ((c : ℚ) - (s.ingest (r : ℚ)).estimate_echo) (-32768) 32767
      (by norm_num)).1
    push_cast
    linarith
  · show ratTrunc (clampQ _ (-32768) 32767) ≤ (32767 : ℤ)
    refine ratTrunc_le _ _ ?_ (by norm_num)
    have := (clampQ_mem ((c : ℚ) - (s.ingest (r : ℚ)).estimate_echo) (-32768) 32767
      (by norm_num)).2
    push_cast
    linarith
  · intro h
    show ratTrunc (clampQ _ (-32768) 32767) = (32767 : ℤ)
    unfold clampQ
    rw [if_neg (by linarith), if_pos h]
    rw [show (32767 : ℚ) = ((32767 : ℤ) : ℚ) by norm_num]
    exact ratTrunc_intCast 32767
  · intro h
    show ratTrunc (clampQ _ (-32768) 32767) = (-32768 : ℤ)
    unfold clampQ
    rw [if_pos h]
    rw [show (-32768 : ℚ) = (((-32768 : ℤ)) : ℚ) by norm_num]
    exact ratTrunc_intCast (-32768)

/-- C8 witness: a state whose adapted taps make the residual overflow the
i16 maximum; the emitted sample is exactly `32767`. -/
theorem C8_saturation_witness :
    (c8State.processSample (-30000) 30000 true).2 = 32767 :=
  (C8_saturation c8State (-30000) 30000 true).2.2.1
    (by norm_num [c8State, NlmsCanceller.ingest, NlmsCanceller.estimate_echo, estimateGo,
      dec_idx])

theorem rms_level_mem (samples : List ℤ) :
    0 ≤ rms_level samples ∧ rms_level samples ≤ 1 := by
  unfold rms_level
  by_cases h : samples = []
  · rw [if_pos h]; norm_num
  · rw [if_neg h]
    refine ⟨le_min (div_nonneg (Real.sqrt_nonneg _) (by norm_num)) (by norm_num),
      min_le_right _ _⟩

/-- C5: the gate's levels are the block RMS divided by the i16 maximum and
capped into `[0, 1]`, and `adapt` is `render_level > min_render_level AND
capture_level <= render_level * ratio`; with render level `0` and a
positive capture level the gate denies adaptation for every ratio. -/
theorem C5_double_talk_gate :
    (∀ samples : List ℤ, 0 ≤ rms_level samples ∧ rms_level samples ≤ 1) ∧
    (∀ (render input : List ℤ) (ratio : ℝ), rms_level render = 0 →
        0 < rms_level input → ¬ adaptGate render input min_render_level ratio) := by
  refine ⟨rms_level_mem, ?_⟩
  intro render input ratio h0 _ hgate
  obtain ⟨hgt, _⟩ := hgate
  rw [h0] at hgt
  norm_num [min_render_level] at hgt

/-- C5 witness: an all-zero render block and a nonzero capture block deny
adaptation at the (arbitrary) ratio `7`. -/
theorem C5_double_talk_gate_witness :
    ¬ adaptGate [0] [1] min_render_level 7 :=
  C5_double_talk_gate.2 [0] [1] 7 (by norm_num [rms_level]) (by norm_num [rms_level])

theorem C10_deterministic_witness :
    sampleState.process_block [1] [2] [0] true =
      sampleState.process_block [1] [2] [0] true :=
  C10_deterministic sampleState sampleState [1] [1] [2] [2] [0] [0] true true
    rfl rfl rfl rfl rfl rfl rfl rfl rfl rfl

end EchoNlms
